import Mathlib

/-!
Verification development for the AuraFX forex dashboard.

The definitions below are shallow embeddings of the TypeScript sources:
`FrankfurterApiService` (cache, sanitizers, request fallbacks, conversion),
the currency chart component (`calculateMetrics`, `calculateMA`,
`calculateEMA`), the currency analytics card (`calculateVolatility`,
`determineTrend`) and the market overview component (`calculateStrengths`).

Modelling conventions:
- JavaScript numbers are modelled exactly: a `JsNum` is either a rational
  (`fin q`) or one of the non-finite values `nan`, `posInf`, `negInf`.
  Floating-point rounding and overflow are not modelled, so arithmetic on
  finite values is exact; `isFinite` guards on freshly computed sums or
  products are therefore always true in the model and noted where they
  occur in the source.
- A division whose JavaScript evaluation can be `0 / 0 = NaN` (average of
  an empty list) is modelled with an `Option` result (`none` = NaN);
  comparisons against NaN are false, which the model reflects by matching
  on the `Option`.
- `Date.now()` readings are integers passed in explicitly; `Map` is an
  insertion-ordered association list where `set` on an existing key keeps
  its position, exactly like a JavaScript `Map`.
- Arrays of `number | null` become `List (Option ℚ)`; `none` stands for a
  `null` (or non-finite) element, which the source treats identically.
-/

namespace AuraFX

/-- Model of a JavaScript number: an exact rational or a non-finite value. -/
inductive JsNum where
  | fin (q : ℚ)
  | nan
  | posInf
  | negInf
deriving DecidableEq

/-- `isFinite(x)` on the number model. -/
def JsNum.isFinite : JsNum → Bool
  | .fin _ => true
  | _ => false

/-- JavaScript truthiness of a number: `0` and `NaN` are falsy. -/
def JsNum.truthy : JsNum → Bool
  | .fin q => q ≠ 0
  | .nan => false
  | _ => true

/-- `x > 0` in JavaScript; false for `NaN`. -/
def JsNum.gtZero : JsNum → Bool
  | .fin q => 0 < q
  | .posInf => true
  | _ => false

/-- `x <= 0` in JavaScript; false for `NaN`. -/
def JsNum.leZero : JsNum → Bool
  | .fin q => q ≤ 0
  | .negInf => true
  | _ => false

/-! ### String helpers

The service manipulates strings with `trim`, `toUpperCase`,
`replace(/[^A-Z]/g, '')`, `slice` and regular-expression tests.  They are
modelled on the character list underlying a `String` (ASCII-faithful,
which covers every string these functions are applied to). -/

/-- A character matched by the class `[A-Z]`. -/
def isAsciiUpper (c : Char) : Bool := 'A' ≤ c && c ≤ 'Z'

/-- `s.trim()`: strip leading and trailing whitespace. -/
def jsTrim (s : String) : String :=
  String.mk (((s.toList.dropWhile Char.isWhitespace).reverse.dropWhile
    Char.isWhitespace).reverse)

/-- `s.toUpperCase()` (ASCII). -/
def jsUpper (s : String) : String := String.mk (s.toList.map Char.toUpper)

/-- `s.slice(0, n)`. -/
def strSlice (s : String) (n : ℕ) : String := String.mk (s.toList.take n)

/-- The test `/^[A-Z]{3}$/.test(s)`. -/
def isThreeUpper (s : String) : Bool :=
  s.toList.length = 3 && s.toList.all isAsciiUpper

/-- `sanitizeCurrencyCode` from `frankfurter-api.service.ts`: falsy input
gives `'EUR'`; otherwise trim, upper-case, delete everything outside
`A`–`Z`, keep the first three characters and accept the result only if it
matches `/^[A-Z]{3}$/`, falling back to `'EUR'`. -/
def sanitizeCurrencyCode (code : String) : String :=
  if code = "" then "EUR"
  else
    let sanitized := strSlice (String.mk ((jsUpper (jsTrim code)).toList.filter isAsciiUpper)) 3
    if isThreeUpper sanitized then sanitized else "EUR"

/-- The test applied by `sanitizeCurrencyArray`'s filter. -/
def regexCurrencyTest (s : String) : Bool := isThreeUpper s

/-- Helper for `Array.from(new Set(...))`: drop every element equal to an
earlier one, keeping first occurrences in order. -/
def dedupFirstGo (seen : List String) : List String → List String
  | [] => []
  | x :: xs => if x ∈ seen then dedupFirstGo seen xs else x :: dedupFirstGo (x :: seen) xs

/-- `Array.from(new Set(l))`: first-occurrence de-duplication. -/
def dedupFirst (l : List String) : List String := dedupFirstGo [] l

/-- `sanitizeCurrencyArray`: sanitize every code, keep those matching
`/^[A-Z]{3}$/`, and de-duplicate via a `Set` (first occurrences, input
order preserved — the array is never sorted). -/
def sanitizeCurrencyArray (codes : List String) : List String :=
  dedupFirst ((codes.map sanitizeCurrencyCode).filter regexCurrencyTest)

/-- `Array.prototype.join(',')`. -/
def joinComma : List String → String
  | [] => ""
  | [x] => x
  | x :: xs => x ++ "," ++ joinComma xs

/-- `Array.prototype.join('_')`. -/
def joinUnderscore : List String → String
  | [] => ""
  | [x] => x
  | x :: xs => x ++ "_" ++ joinUnderscore xs

/-- One argument of the variadic `buildCacheKey(...parts)`:
a string, a string array, or `undefined`. -/
inductive KeyPart where
  | str (s : String)
  | arr (l : List String)
  | undef
deriving DecidableEq

/-- The mapping step inside `buildCacheKey`: arrays join with `','`
(or become `'all'` when empty), `undefined` becomes `''`. -/
def keyPartToString : KeyPart → String
  | .str s => s
  | .arr l => if 0 < l.length then joinComma l else "all"
  | .undef => ""

/-- `buildCacheKey`: map each part to a string, drop empties, join with
`'_'` and truncate to 200 characters. -/
def buildCacheKey (parts : List KeyPart) : String :=
  strSlice (joinUnderscore ((parts.map keyPartToString).filter
    (fun p => 0 < p.toList.length))) 200

/-! ### Date and amount sanitizers -/

/-- A character matched by the class `[0-9-]`. -/
def isDigitOrDash (c : Char) : Bool := c.isDigit || c = '-'

/-- Shape test `/^\d{4}-\d{2}-\d{2}$/` on a 10-character candidate. -/
def dateShapeTest : List Char → Bool
  | [y1, y2, y3, y4, s1, m1, m2, s2, d1, d2] =>
      y1.isDigit && y2.isDigit && y3.isDigit && y4.isDigit && s1 = '-' &&
      m1.isDigit && m2.isDigit && s2 = '-' && d1.isDigit && d2.isDigit
  | _ => false

/-- Numeric value of a decimal digit character. -/
def charDigit (c : Char) : ℕ := c.toNat - '0'.toNat

/-- Gregorian leap-year rule, as used by the ECMAScript `Date` parser. -/
def isLeapYear (y : ℕ) : Bool := (y % 4 = 0 && y % 100 ≠ 0) || y % 400 = 0

/-- Days in a month, with February depending on the leap-year rule. -/
def daysInMonth (y m : ℕ) : ℕ :=
  if m = 2 then (if isLeapYear y then 29 else 28)
  else if m = 4 ∨ m = 6 ∨ m = 9 ∨ m = 11 then 30 else 31

/-- The `new Date(s)` validity check on an already shape-matched
`YYYY-MM-DD` candidate: in-range month and day components. -/
def isValidIsoDate : List Char → Bool
  | [y1, y2, y3, y4, _, m1, m2, _, d1, d2] =>
      let y := ((charDigit y1 * 10 + charDigit y2) * 10 + charDigit y3) * 10 + charDigit y4
      let m := charDigit m1 * 10 + charDigit m2
      let d := charDigit d1 * 10 + charDigit d2
      1 ≤ m && m ≤ 12 && 1 ≤ d && d ≤ daysInMonth y m
  | _ => false

/-- `sanitizeDate`: falsy input falls back to today's date; otherwise trim,
delete everything outside `[0-9-]`, keep 10 characters, and require both
the `YYYY-MM-DD` shape and `Date` validity, falling back to today.
`today` stands for `new Date().toISOString().split('T')[0]`. -/
def sanitizeDate (date : String) (today : String) : String :=
  if date = "" then today
  else
    let s := ((jsTrim date).toList.filter isDigitOrDash).take 10
    if dateShapeTest s = false then today
    else if isValidIsoDate s = false then today
    else String.mk s

/-- `sanitizeAmount` restricted to its `number` input (the only type
`convertCurrency` passes): a finite non-negative number is kept, anything
else becomes `0`.  The string-parsing branch of the source is unreachable
from `convertCurrency` and not modelled. -/
def sanitizeAmount (amount : JsNum) : ℚ :=
  match amount with
  | .fin q => if 0 ≤ q then q else 0
  | _ => 0

/-! ### The rate cache

`Map<string, CacheEntry<unknown>>` is modelled as an insertion-ordered
association list, generic in the key type (the service instantiates it
with `string` keys) and in the stored data. -/

/-- `CacheEntry<T>`: stored data plus the `Date.now()` insertion stamp. -/
structure CacheEntry (α : Type) where
  data : α
  timestamp : ℤ
deriving DecidableEq

/-- The `Map` backing the cache, in insertion order. -/
abbrev Cache (κ α : Type) := List (κ × CacheEntry α)

/-- `Map.get`. -/
def mapLookup [DecidableEq κ] (cache : Cache κ α) (key : κ) : Option (CacheEntry α) :=
  match cache with
  | [] => none
  | (k, e) :: rest => if k = key then some e else mapLookup rest key

/-- `Map.set`: replace in place when the key exists (keeping its position,
as a JavaScript `Map` does), append otherwise. -/
def mapSet [DecidableEq κ] (cache : Cache κ α) (key : κ) (entry : CacheEntry α) : Cache κ α :=
  match cache with
  | [] => [(key, entry)]
  | (k, e) :: rest =>
      if k = key then (k, entry) :: rest else (k, e) :: mapSet rest key entry

/-- `Map.delete`. -/
def mapDelete [DecidableEq κ] (cache : Cache κ α) (key : κ) : Cache κ α :=
  match cache with
  | [] => []
  | (k, e) :: rest => if k = key then rest else (k, e) :: mapDelete rest key

/-- `cacheTimeout = 5 * 60 * 1000` milliseconds. -/
def cacheTimeout : ℤ := 5 * 60 * 1000

/-- `maxCacheSize = 100`. -/
def maxCacheSize : ℕ := 100

/-- `retryAttempts = 2`. -/
def retryAttempts : ℕ := 2

/-- `getCached`: return the stored data when the entry is younger than the
timeout; delete a found-but-stale entry and return nothing.  The pair
carries the updated map (the deletion side effect). -/
def getCached [DecidableEq κ] (cache : Cache κ α) (key : κ) (now : ℤ) :
    Option α × Cache κ α :=
  match mapLookup cache key with
  | some e =>
      if now - e.timestamp < cacheTimeout then (some e.data, cache)
      else (none, mapDelete cache key)
  | none => (none, cache)

/-- The scan inside `evictOldestCacheEntry`: `oldestTimestamp` starts at
`Date.now()` and only a strictly smaller stamp replaces the candidate. -/
def findOldestKey [DecidableEq κ] (cache : Cache κ α) (now : ℤ) : Option κ :=
  (cache.foldl
    (fun acc kv => if kv.2.timestamp < acc.2 then (some kv.1, kv.2.timestamp) else acc)
    ((none : Option κ), now)).1

/-- `evictOldestCacheEntry`: delete the found candidate, if any. -/
def evictOldestCacheEntry [DecidableEq κ] (cache : Cache κ α) (now : ℤ) : Cache κ α :=
  match findOldestKey cache now with
  | some k => mapDelete cache k
  | none => cache

/-- `setCache`: evict first when at capacity, then insert with the current
stamp. -/
def setCache [DecidableEq κ] (cache : Cache κ α) (key : κ) (data : α) (now : ℤ) :
    Cache κ α :=
  let cache1 := if maxCacheSize ≤ cache.length then evictOldestCacheEntry cache now else cache
  mapSet cache1 key ⟨data, now⟩

/-! ### Exchange-rate payloads and the service operations -/

/-- A validated `ExchangeRate`: the service stores rate tables as plain
objects, modelled as association lists.  Values are kept as `JsNum`
because the TypeScript interface allows any `number`; the validator only
ever stores finite positive ones. -/
structure ExchangeRate where
  base : String
  date : String
  rates : List (String × JsNum)
deriving DecidableEq

/-- Read a property of a rates object. -/
def recordGet (r : List (String × JsNum)) (k : String) : Option JsNum :=
  match r with
  | [] => none
  | (k2, v) :: rest => if k2 = k then some v else recordGet rest k

/-- Assign a property of a rates object (`obj[key] = value`): existing
keys keep their position, new keys append. -/
def recordSet (r : List (String × JsNum)) (k : String) (v : JsNum) :
    List (String × JsNum) :=
  match r with
  | [] => [(k, v)]
  | (k2, w) :: rest => if k2 = k then (k2, v) :: rest else (k2, w) :: recordSet rest k v

/-- The raw JSON body of a `latest` response, before validation.  `none`
in a field stands for a missing or wrongly-typed property. -/
structure RawExchangeRate where
  base : Option String
  date : Option String
  rates : Option (List (String × JsNum))
deriving DecidableEq

/-- JavaScript falsiness of an optional string (`undefined` or `''`). -/
def strFalsy : Option String → Bool
  | none => true
  | some s => s = ""

/-- `createEmptyExchangeRate`: sanitized base (with a dead `|| 'EUR'`
fallback, since the sanitizer never returns an empty string), today's
date, empty rates. -/
def createEmptyExchangeRate (base : String) (today : String) : ExchangeRate :=
  let s := sanitizeCurrencyCode base
  { base := if s = "" then "EUR" else s, date := today, rates := [] }

/-- `validateExchangeRate`: a non-object body, or one without truthy
`base` and object `rates`, is replaced by the empty value; otherwise every
rate entry is kept only when its sanitized code is truthy and its value is
finite and positive (later duplicates overwrite, as object assignment
does). -/
def validateExchangeRate (data : Option RawExchangeRate) (base : String)
    (today : String) : ExchangeRate :=
  match data with
  | none => createEmptyExchangeRate base today
  | some raw =>
      if strFalsy raw.base || raw.rates.isNone then createEmptyExchangeRate base today
      else
        let sanitizedRates := (raw.rates.getD []).foldl
          (fun acc kv =>
            let sKey := sanitizeCurrencyCode kv.1
            match kv.2 with
            | .fin q => if sKey ≠ "" && 0 < q then recordSet acc sKey (.fin q) else acc
            | _ => acc) []
        let sBase := sanitizeCurrencyCode (raw.base.getD "")
        { base := if sBase = "" then base else sBase,
          date := match raw.date with
            | some d => sanitizeDate d today
            | none => today,
          rates := sanitizedRates }

/-- The `retry(n)` operator over a sequence of attempt outcomes: the first
attempt plus up to `n` re-subscriptions; the outer `none` is a transport
error, a `some payload` is a completed HTTP response (whose body may still
be anything). -/
def fetchWithRetry (attempts : List (Option β)) (budget : ℕ) : Option β :=
  match budget, attempts with
  | _, [] => none
  | 0, a :: _ => a
  | n + 1, a :: rest =>
      match a with
      | some r => some r
      | none => fetchWithRetry rest n

/-- `getLatestRates`: sanitize the inputs, build the cache key, serve a
fresh cached value if present; otherwise run the fetch with retries,
validate and cache a completed response, and fall back to the empty
exchange rate when every attempt fails (`catchError`).  The pair carries
the cache after the operation. -/
def getLatestRates (cache : Cache String ExchangeRate) (now : ℤ) (today : String)
    (base : String) (symbols : List String)
    (attempts : List (Option (Option RawExchangeRate))) :
    ExchangeRate × Cache String ExchangeRate :=
  let sanitizedBase := sanitizeCurrencyCode base
  let sanitizedSymbols := sanitizeCurrencyArray symbols
  let cacheKey := buildCacheKey [.str "latest", .str sanitizedBase, .arr sanitizedSymbols]
  match getCached cache cacheKey now with
  | (some cached, cache1) => (cached, cache1)
  | (none, cache1) =>
      match fetchWithRetry attempts retryAttempts with
      | some body =>
          let data := validateExchangeRate body sanitizedBase today
          (data, setCache cache1 cacheKey data now)
      | none => (createEmptyExchangeRate sanitizedBase today, cache1)

/-- `convertCurrency`, applied to the `ExchangeRate` produced by
`getLatestRates`: zero for a non-positive sanitized amount; zero when the
target rate is falsy (`!rate` covers a missing, zero or `NaN` rate),
non-finite, or non-positive; otherwise the product.  The source's final
`isFinite(result)` guard is always true in the exact model, and the
catch-all branch below is unreachable past the guards. -/
def convertCurrency (frm : String) (tgt : String) (amount : JsNum)
    (latest : ExchangeRate) : ℚ :=
  let sanitizedTo := sanitizeCurrencyCode tgt
  let sanitizedAmount := sanitizeAmount amount
  if sanitizedAmount ≤ 0 then 0
  else
    match recordGet latest.rates sanitizedTo with
    | none => 0
    | some r =>
        if r.truthy = false || r.isFinite = false || r.leZero then 0
        else
          match r with
          | .fin q => sanitizedAmount * q
          | _ => 0

/-! ### Analytics: shared numeric helpers -/

/-- `Array.prototype.reduce((a, b) => a + b, 0)`. -/
def jsSum (l : List ℚ) : ℚ := l.foldl (fun a b => a + b) 0

/-- Sum divided by length — the mean as every analytics routine computes
it.  Only meaningful on nonempty lists. -/
def listMean (l : List ℚ) : ℚ := jsSum l / l.length

/-- The JavaScript average `sum / length` with `0 / 0 = NaN` modelled as
`none`. -/
def javg (l : List ℚ) : Option ℚ :=
  if l = [] then none else some (listMean l)

/-- `Math.max(...l)` for a nonempty list (the only way it is called). -/
def jsMax (l : List ℚ) : ℚ :=
  match l with
  | [] => 0
  | x :: xs => xs.foldl max x

/-- `Math.min(...l)` for a nonempty list (the only way it is called). -/
def jsMin (l : List ℚ) : ℚ :=
  match l with
  | [] => 0
  | x :: xs => xs.foldl min x

/-- The filter `r => isFinite(r) && r > 0` applied to a number array,
extracting the surviving rationals. -/
def validRates (rates : List JsNum) : List ℚ :=
  rates.filterMap (fun r =>
    match r with
    | .fin q => if 0 < q then some q else none
    | _ => none)

/-! ### Moving averages (`calculateMA`, `calculateEMA` in the currency
chart component) -/

/-- The clamp `Math.max(2, Math.min(100, period))`. -/
def clampPeriod (period : ℤ) : ℤ := max 2 (min 100 period)

/-- One iteration of the `calculateMA` loop at index `i`. -/
def maStep (data : List (Option ℚ)) (vp : ℕ) (i : ℕ) : Option ℚ :=
  if i < vp - 1 then none
  else
    let slice := (data.take (i + 1)).drop (i + 1 - vp)
    let valid := slice.filterMap id
    if 0 < valid.length then some (jsSum valid / valid.length) else none

/-- `calculateMA`: clamp the period, then for each index push `null`
while the window has not filled, and otherwise the mean of the valid
values in the trailing `period`-element slice (dividing by the count of
valid values, `null` when there are none). -/
def calculateMA (data : List (Option ℚ)) (period : ℤ) : List (Option ℚ) :=
  let vp := (clampPeriod period).toNat
  (List.range data.length).foldl (fun result i => result ++ [maStep data vp i]) []

/-- The moving average as the specification words it: absent before index
`period - 1`; afterwards the arithmetic mean of the valid values present
in the trailing window of `period` elements, divided by their count, and
absent when the window holds no valid value.  The period is clamped to
`[2, 100]`. -/
def maSpec (data : List (Option ℚ)) (period : ℤ) : List (Option ℚ) :=
  let vp := (clampPeriod period).toNat
  (List.range data.length).map (fun i =>
    if i + 1 < vp then none
    else
      let window := (data.drop (i + 1 - vp)).take vp
      let valid := window.filterMap id
      if valid = [] then none else some (listMean valid))

/-- One iteration of the `calculateEMA` loop at index `i`, carrying the
output list and the running `ema` state. -/
def emaStep (data : List (Option ℚ)) (vp : ℕ) (f : ℚ)
    (acc : List (Option ℚ) × Option ℚ) (i : ℕ) : List (Option ℚ) × Option ℚ :=
  match data.getD i none with
  | none => (acc.1 ++ [none], acc.2)
  | some c =>
      match acc.2 with
      | none =>
          let firstValues := (data.take (min vp (i + 1))).filterMap id
          let ema := if 0 < firstValues.length then some (listMean firstValues) else none
          (acc.1 ++ [ema], ema)
      | some e =>
          let e2 := (c - e) * f + e
          (acc.1 ++ [some e2], some e2)

/-- `calculateEMA`: clamp the period, smoothing factor `2 / (period + 1)`,
then the loop above over all indices, starting with no seed. -/
def calculateEMA (data : List (Option ℚ)) (period : ℤ) : List (Option ℚ) :=
  let vp := (clampPeriod period).toNat
  let multiplier : ℚ := 2 / ((vp : ℚ) + 1)
  ((List.range data.length).foldl (emaStep data vp multiplier) ([], none)).1

/-- The exponential moving average as the specification words it,
written as a structural recursion over the remaining inputs: an absent
input emits an absent output and leaves the state untouched; a valid
input with no seed yet seeds with the simple average of the valid values
among the first `min(period, i + 1)` inputs (absent when there are none);
a valid input with seed `e` emits `(c - e) * factor + e` and that value
becomes the state.  Returns the outputs and the final state. -/
def emaSpecGo (data : List (Option ℚ)) (vp : ℕ) (f : ℚ) :
    ℕ → Option ℚ → List (Option ℚ) → List (Option ℚ) × Option ℚ
  | _, st, [] => ([], st)
  | i, st, none :: rest =>
      let r := emaSpecGo data vp f (i + 1) st rest
      (none :: r.1, r.2)
  | i, st, some c :: rest =>
      match st with
      | none =>
          let firstValues := (data.take (min vp (i + 1))).filterMap id
          let seed := if firstValues = [] then none else some (listMean firstValues)
          let r := emaSpecGo data vp f (i + 1) seed rest
          (seed :: r.1, r.2)
      | some e =>
          let e2 := (c - e) * f + e
          let r := emaSpecGo data vp f (i + 1) (some e2) rest
          (some e2 :: r.1, r.2)

/-- The specification-side EMA: clamped period, factor `2 / (period + 1)`,
recursion from position `0` with no state. -/
def emaSpec (data : List (Option ℚ)) (period : ℤ) : List (Option ℚ) :=
  let vp := (clampPeriod period).toNat
  (emaSpecGo data vp (2 / ((vp : ℚ) + 1)) 0 none data).1

/-! ### Volatility and trend (currency analytics card) -/

/-- `calculateVolatility` from the analytics card: `null` for fewer than
2 raw points or fewer than 2 valid (finite, positive) points; then the
mean, `null` when it is zero (the `isFinite` guards on mean, standard
deviation and result are always true in the exact model); population
variance via the squared-difference reduce; finally
`stdDev / mean * 100`. -/
noncomputable def calculateVolatility (rates : List JsNum) : Option ℝ :=
  if rates.length < 2 then none
  else
    let valid := validRates rates
    if valid.length < 2 then none
    else
      let mean := jsSum valid / valid.length
      if mean = 0 then none
      else
        let variance := (valid.foldl (fun s r => s + (r - mean) * (r - mean)) 0) / valid.length
        some (Real.sqrt (variance : ℝ) / (mean : ℝ) * 100)

/-- Population variance of a rational list, as the specification words
it. -/
def popVariance (l : List ℚ) : ℚ :=
  ((l.map (fun r => (r - listMean l) ^ 2)).sum) / l.length

/-- Volatility as the specification words it: the population standard
deviation of the valid (finite, positive) subset divided by its mean,
expressed as a percentage; absent when fewer than 2 valid points remain
or the mean is zero (a non-finite mean cannot arise in the exact
model). -/
noncomputable def volatilitySpec (rates : List JsNum) : Option ℝ :=
  let valid := validRates rates
  if valid.length < 2 then none
  else if listMean valid = 0 then none
  else some (Real.sqrt ((popVariance valid : ℚ) : ℝ) / (listMean valid : ℝ) * 100)

/-- Trend classification values. -/
inductive Trend where
  | up
  | down
  | neutral
deriving DecidableEq

/-- The trend block of `calculateMetrics` (currency chart component),
applied to the already-extracted valid rate list: split at the floor
midpoint, average both halves (`0 / 0 = NaN` for an empty first half is
the `none` branch, making every comparison false), and compare against
the `1.01` and `0.99` factors. -/
def trendOfRates (rates : List ℚ) : Trend :=
  let midPoint := rates.length / 2
  let firstHalf := rates.take midPoint
  let secondHalf := rates.drop midPoint
  match javg firstHalf, javg secondHalf with
  | some firstAvg, some secondAvg =>
      if secondAvg > firstAvg * 1.01 then .up
      else if secondAvg < firstAvg * 0.99 then .down
      else .neutral
  | _, _ => .neutral

/-- The trend as the claim words it: neutral for fewer than 2 valid
points; otherwise split at the floor midpoint and compare the second-half
mean against the first-half mean times `1.01` and `0.99`. -/
def trendClaimSpec (rates : List ℚ) : Trend :=
  if rates.length < 2 then .neutral
  else
    let midPoint := rates.length / 2
    let firstAvg := listMean (rates.take midPoint)
    let secondAvg := listMean (rates.drop midPoint)
    if secondAvg > firstAvg * 1.01 then .up
    else if secondAvg < firstAvg * 0.99 then .down
    else .neutral

/-- `determineTrend` from the analytics card: neutral for fewer than 2
raw or fewer than 2 valid points; average both halves of the valid
subset; neutral when the first average is zero (the `isFinite` guards
are always true in the exact model, and both halves are nonempty here);
then the relative change in percent against thresholds `0.1` and
`-0.1`. -/
def determineTrend (rates : List JsNum) : Trend :=
  if rates.length < 2 then .neutral
  else
    let valid := validRates rates
    if valid.length < 2 then .neutral
    else
      let midPoint := valid.length / 2
      match javg (valid.take midPoint), javg (valid.drop midPoint) with
      | some firstAvg, some secondAvg =>
          if firstAvg = 0 then .neutral
          else
            let change := (secondAvg - firstAvg) / firstAvg * 100
            if change > 0.1 then .up
            else if change < -0.1 then .down
            else .neutral
      | _, _ => .neutral

/-- `determineTrend` as a direct description: neutral under 2 valid
points, otherwise classified by the percentage change between the two
half-means with thresholds `+0.1` and `-0.1`. -/
def trendPercentSpec (rates : List JsNum) : Trend :=
  let valid := validRates rates
  if valid.length < 2 then .neutral
  else
    let firstAvg := listMean (valid.take (valid.length / 2))
    let secondAvg := listMean (valid.drop (valid.length / 2))
    let change := (secondAvg - firstAvg) / firstAvg * 100
    if change > 0.1 then .up
    else if change < -0.1 then .down
    else .neutral

/-! ### `calculateMetrics` (currency chart component) -/

/-- The derived metrics record set by `calculateMetrics`. -/
structure Metrics where
  high : ℚ
  low : ℚ
  average : ℚ
  change : ℚ
  changePercent : ℚ
  volatility : ℝ
  trend : Trend

/-- The computation `calculateMetrics` performs once the valid rate list
has been extracted: absent for an empty list, otherwise high, low,
average, absolute and percentage change (zero when the first rate is
zero), population variance, `volatility = sqrt(variance) / average * 100`
(zero when the average is zero — never absent), and the trend block. -/
noncomputable def metricsOfRates (rates : List ℚ) : Option Metrics :=
  if rates = [] then none
  else
    let average := jsSum rates / rates.length
    let firstRate := rates.headD 0
    let lastRate := (rates.getLast?).getD 0
    let change := lastRate - firstRate
    let variance := (rates.foldl (fun s r => s + (r - average) * (r - average)) 0) / rates.length
    some
      { high := jsMax rates
        low := jsMin rates
        average := average
        change := change
        changePercent := if firstRate ≠ 0 then change / firstRate * 100 else 0
        volatility := if average ≠ 0 then Real.sqrt (variance : ℝ) / (average : ℝ) * 100 else 0
        trend := trendOfRates rates }

/-- Strict lexicographic comparison of character lists by code point —
the default `Array.prototype.sort` string comparison. -/
def charListLt : List Char → List Char → Bool
  | [], [] => false
  | [], _ :: _ => true
  | _ :: _, [] => false
  | a :: as, b :: bs =>
      if a.val < b.val then true
      else if b.val < a.val then false
      else charListLt as bs

/-- String comparison used by `Object.keys(...).sort()`. -/
def strLt (a b : String) : Bool := charListLt a.toList b.toList

/-- Stable insertion of a string into an ascending list. -/
def insertSorted (x : String) : List String → List String
  | [] => [x]
  | y :: ys => if strLt x y then x :: y :: ys else y :: insertSorted x ys

/-- `Object.keys(...).sort()`: a stable ascending sort (object keys are
unique, so stability is irrelevant here). -/
def sortStrings (l : List String) : List String :=
  l.foldl (fun acc s => insertSorted s acc) []

/-- Look up a date's rate object inside a historical payload. -/
def historyGet (data : List (String × List (String × JsNum))) (d : String) :
    Option (List (String × JsNum)) :=
  match data with
  | [] => none
  | (k, v) :: rest => if k = d then some v else historyGet rest d

/-- `calculateMetrics`: sort the date keys, extract for each date the
selected currency's rate when it is a finite positive number, drop the
rest, and run the metrics computation (absent when no valid rate
remains). -/
noncomputable def calculateMetrics (data : List (String × List (String × JsNum)))
    (currency : String) : Option Metrics :=
  let dates := sortStrings (data.map Prod.fst)
  let rates := dates.filterMap (fun d =>
    match historyGet data d with
    | some day =>
        match recordGet day currency with
        | some (.fin q) => if 0 < q then some q else none
        | _ => none
    | none => none)
  metricsOfRates rates

/-! ### Currency strength (market overview component) -/

/-- Input row of `calculateStrengths`: the `CurrencyData` model, with an
optional 24-hour percentage change. -/
structure CurrencyData where
  code : String
  name : String
  rate : JsNum
  changePercent24h : Option JsNum
deriving DecidableEq

/-- Strength classification values. -/
inductive StrengthTrend where
  | strong
  | moderate
  | weak
deriving DecidableEq

/-- Output row of `calculateStrengths`. -/
structure CurrencyStrength where
  code : String
  name : String
  strength : ℚ
  trend : StrengthTrend
  change24h : ℚ
  change7d : ℚ
  change30d : ℚ
deriving DecidableEq

/-- `STRENGTH_THRESHOLD_STRONG = 2`. -/
def STRENGTH_THRESHOLD_STRONG : ℚ := 2

/-- `STRENGTH_THRESHOLD_WEAK = -2`. -/
def STRENGTH_THRESHOLD_WEAK : ℚ := -2

/-- The guarded historical change term of the strength loop:
`rate && rate > 0 && isFinite(rate) ? ((current - rate) / rate) * 100 : 0`
(`NaN` is falsy, infinities fail `isFinite`, so only a finite positive
rate computes the percentage). -/
def histChange (current : ℚ) (r : Option JsNum) : ℚ :=
  match r with
  | some (.fin q) => if q ≠ 0 && 0 < q then (current - q) / q * 100 else 0
  | _ => 0

/-- The guarded 24h change term:
`changePercent24h && isFinite(changePercent24h) ? changePercent24h : 0`
(for the falsy value `0` the branch returns the same number). -/
def change24hOf (v : Option JsNum) : ℚ :=
  match v with
  | some (.fin q) => if q ≠ 0 then q else 0
  | _ => 0

/-- The specification's change term: defaults to 0 unless the source rate
is an available, finite, positive number. -/
def specHistChange (current : ℚ) (r : Option JsNum) : ℚ :=
  match r with
  | some (.fin q) => if 0 < q then (current - q) / q * 100 else 0
  | _ => 0

/-- The specification's 24h term: the value when it is a finite number,
otherwise 0. -/
def specChange24h (v : Option JsNum) : ℚ :=
  match v with
  | some (.fin q) => q
  | _ => 0

/-- The body of the `calculateStrengths` loop for one currency.
`continue` on a non-finite or non-positive current rate is the `none`
result.  The guard `rate && rate > 0 && isFinite(rate)` on a historical
rate keeps only finite positive values (`NaN` is falsy, infinities fail
`isFinite`), and `changePercent24h && isFinite(...)` zeroes a missing,
zero or non-finite 24h change — for the value `0` that branch returns the
same number.  The trailing `isFinite` checks on the computed score and
changes are always true in the exact model. -/
def strengthStep (h7 h30 : List (String × JsNum)) (c : CurrencyData) :
    Option CurrencyStrength :=
  match c.rate with
  | .fin currentRate =>
      if currentRate ≤ 0 then none
      else
        let change7d := histChange currentRate (recordGet h7 c.code)
        let change30d := histChange currentRate (recordGet h30 c.code)
        let change24h := change24hOf c.changePercent24h
        let strength := change24h * 0.5 + change7d * 0.3 + change30d * 0.2
        some
          { code := c.code
            name := c.name
            strength := strength
            trend :=
              if strength > STRENGTH_THRESHOLD_STRONG then .strong
              else if strength < STRENGTH_THRESHOLD_WEAK then .weak
              else .moderate
            change24h := change24h
            change7d := change7d
            change30d := change30d }
  | _ => none

/-- Stable insertion for the descending-by-strength comparator
`(a, b) => b.strength - a.strength`. -/
def strengthInsert (x : CurrencyStrength) : List CurrencyStrength → List CurrencyStrength
  | [] => [x]
  | y :: ys => if y.strength < x.strength then x :: y :: ys else y :: strengthInsert x ys

/-- `results.sort((a, b) => b.strength - a.strength)`: a stable descending
sort by strength. -/
def sortByStrengthDesc (l : List CurrencyStrength) : List CurrencyStrength :=
  l.foldl (fun acc x => strengthInsert x acc) []

/-- `results.push(...)` guarded by the loop's `continue`: append the row
when the step produced one. -/
def pushSome (res : List γ) (o : Option γ) : List γ :=
  match o with
  | some s => res ++ [s]
  | none => res

/-- `calculateStrengths`: empty input short-circuits; otherwise the loop
above pushes one row per currency with a valid rate, and the result is
sorted by descending strength. -/
def calculateStrengths (currencies : List CurrencyData)
    (h7 h30 : List (String × JsNum)) : List CurrencyStrength :=
  if currencies.length = 0 then []
  else
    let results := currencies.foldl (fun res c => pushSome res (strengthStep h7 h30 c)) []
    sortByStrengthDesc results

/-- One strength row as the specification words it: only currencies with
a finite positive rate are scored; the score is
`0.5 * change24h + 0.3 * change7d + 0.2 * change30d` with each change
term defaulting to 0 when its source rate is unavailable or invalid (the
system-wide validity notion: a finite, positive number); classification
is `strong` above `2`, `weak` below `-2`, else `moderate`. -/
def strengthSpecEntry (h7 h30 : List (String × JsNum)) (c : CurrencyData) :
    Option CurrencyStrength :=
  match c.rate with
  | .fin r =>
      if 0 < r then
        let c24 := specChange24h c.changePercent24h
        let c7 := specHistChange r (recordGet h7 c.code)
        let c30 := specHistChange r (recordGet h30 c.code)
        let score := 0.5 * c24 + 0.3 * c7 + 0.2 * c30
        some
          { code := c.code
            name := c.name
            strength := score
            trend :=
              if STRENGTH_THRESHOLD_STRONG < score then .strong
              else if score < STRENGTH_THRESHOLD_WEAK then .weak
              else .moderate
            change24h := c24
            change7d := c7
            change30d := c30 }
      else none
  | _ => none

/-- The specification-side strength list: score every currency, keep the
scored ones, sort by descending strength. -/
def strengthsSpec (currencies : List CurrencyData)
    (h7 h30 : List (String × JsNum)) : List CurrencyStrength :=
  sortByStrengthDesc (currencies.filterMap (strengthSpecEntry h7 h30))

/-! ### Helper lemmas -/

/-- A push-style fold builds the same list as `map`. -/
theorem foldl_push_eq_map (g : β → γ) (l : List β) :
    ∀ init : List γ, l.foldl (fun r b => r ++ [g b]) init = init ++ l.map g := by
  induction l with
  | nil => intro init; simp
  | cons b t ih => intro init; simp [ih]

/-- A conditional push-style fold builds the same list as `filterMap`. -/
theorem foldl_pushOpt_eq_filterMap (g : β → Option γ) (l : List β) :
    ∀ init : List γ,
      l.foldl (fun r b => pushSome r (g b)) init = init ++ l.filterMap g := by
  induction l with
  | nil => intro init; simp
  | cons b t ih =>
      intro init
      rw [List.foldl_cons]
      cases hb : g b with
      | none => rw [ih]; simp [pushSome, List.filterMap_cons, hb]
      | some v => rw [ih]; simp [pushSome, List.filterMap_cons, hb]

/-- An additive fold with a projected summand is the sum of the mapped
list. -/
theorem foldl_add_eq_sum (f : ℚ → ℚ) (l : List ℚ) :
    ∀ a : ℚ, l.foldl (fun s r => s + f r) a = a + (l.map f).sum := by
  induction l with
  | nil => intro a; simp
  | cons b t ih => intro a; simp [ih, add_assoc]

/-- The JavaScript reduce-sum agrees with `List.sum`. -/
theorem jsSum_eq_sum (l : List ℚ) : jsSum l = l.sum := by
  have h := foldl_add_eq_sum (fun r => r) l 0
  simpa [jsSum] using h

/-- The mean of a nonempty list of positive rationals is positive. -/
theorem listMean_pos {l : List ℚ} (hne : l ≠ []) (hpos : ∀ r ∈ l, 0 < r) :
    0 < listMean l := by
  have hs : 0 < l.sum := List.sum_pos l hpos hne
  have hl : 0 < (l.length : ℚ) := by
    have := List.length_pos.mpr hne
    exact_mod_cast this
  have : 0 < jsSum l := by rwa [jsSum_eq_sum]
  exact div_pos this hl

/-- The clamped period is at least 2 after `toNat`. -/
theorem clampPeriod_toNat_ge_two (p : ℤ) : 2 ≤ (clampPeriod p).toNat := by
  unfold clampPeriod; omega

/-! ### C7: the simple moving average -/

/-- Pointwise agreement of the `calculateMA` loop body with the
specification's description of one output position. -/
theorem maStep_eq_spec (data : List (Option ℚ)) (vp : ℕ) (hvp : 2 ≤ vp) (i : ℕ) :
    maStep data vp i =
      (if i + 1 < vp then none
       else
         let window := (data.drop (i + 1 - vp)).take vp
         let valid := window.filterMap id
         if valid = [] then none else some (listMean valid)) := by
  by_cases h : i < vp - 1
  · have h2 : i + 1 < vp := by omega
    simp [maStep, h, h2]
  · have h2 : ¬ (i + 1 < vp) := by omega
    have hwin : (data.take (i + 1)).drop (i + 1 - vp) = (data.drop (i + 1 - vp)).take vp := by
      rw [List.drop_take]
      congr 1
      omega
    simp only [maStep, if_neg h, if_neg h2, hwin]
    by_cases hv : ((data.drop (i + 1 - vp)).take vp).filterMap id = []
    · simp [hv]
    · have hlen : 0 < (((data.drop (i + 1 - vp)).take vp).filterMap id).length :=
        List.length_pos.mpr hv
      simp [hv, hlen, listMean]

/-- C7: `movingAverage` clamps the period to `[2, 100]`; every index below
`period - 1` is absent, and from index `period - 1` on the output is the
mean of the valid values present in the trailing `period`-element window,
divided by the count of valid values actually present (absent when the
window has none); in particular
`movingAverage([1,2,3,4,5], 3) = [absent, absent, 2, 3, 4]`. -/
theorem calculateMA_meets_spec :
    (∀ (data : List (Option ℚ)) (period : ℤ), calculateMA data period = maSpec data period)
    ∧ calculateMA [some 1, some 2, some 3, some 4, some 5] 3
        = [none, none, some 2, some 3, some 4] := by
  constructor
  · intro data period
    unfold calculateMA maSpec
    rw [foldl_push_eq_map (maStep data (clampPeriod period).toNat)]
    rw [List.nil_append]
    exact List.map_congr_left fun i _ =>
      maStep_eq_spec data _ (clampPeriod_toNat_ge_two period) i
  · norm_num [calculateMA, maStep, clampPeriod, jsSum, List.range_succ,
      List.filterMap, List.foldl, Int.toNat_ofNat, List.drop, List.take]

/-! ### C6: the exponential moving average -/

/-- The `calculateEMA` loop over indices `i, i+1, ...` agrees with the
structural recursion `emaSpecGo` on the remaining inputs. -/
theorem ema_loop_eq_emaSpecGo (data : List (Option ℚ)) (vp : ℕ) (f : ℚ) :
    ∀ (rest : List (Option ℚ)) (i : ℕ) (st : Option ℚ) (res : List (Option ℚ)),
      data.drop i = rest →
      (List.range' i rest.length).foldl (emaStep data vp f) (res, st)
        = (res ++ (emaSpecGo data vp f i st rest).1, (emaSpecGo data vp f i st rest).2) := by
  intro rest
  induction rest with
  | nil => intro i st res _; simp [emaSpecGo]
  | cons c rest ih =>
    intro i st res hdrop
    have hget : data[i]? = some c := by
      rw [← List.head?_drop, hdrop]; rfl
    have hgetD : data[i]?.getD none = c := by
      rw [hget]; rfl
    have hdrop2 : data.drop (i + 1) = rest := by
      rw [← List.drop_drop, hdrop]; rfl
    rw [List.length_cons, List.range'_succ, List.foldl_cons]
    cases c with
    | none =>
        have hstep : emaStep data vp f (res, st) i = (res ++ [none], st) := by
          simp [emaStep, hgetD]
        rw [hstep, ih (i + 1) st (res ++ [none]) hdrop2]
        simp [emaSpecGo]
    | some cv =>
        cases st with
        | none =>
            have hseed :
                (if 0 < ((data.take (min vp (i + 1))).filterMap id).length
                 then some (listMean ((data.take (min vp (i + 1))).filterMap id)) else none)
                  = (if ((data.take (min vp (i + 1))).filterMap id) = [] then none
                     else some (listMean ((data.take (min vp (i + 1))).filterMap id))) := by
              by_cases hv : ((data.take (min vp (i + 1))).filterMap id) = []
              · simp [hv]
              · simp [hv, List.length_pos.mpr hv]
            have hstep : emaStep data vp f (res, none) i =
                (res ++ [if ((data.take (min vp (i + 1))).filterMap id) = [] then none
                         else some (listMean ((data.take (min vp (i + 1))).filterMap id))],
                 if ((data.take (min vp (i + 1))).filterMap id) = [] then none
                 else some (listMean ((data.take (min vp (i + 1))).filterMap id))) := by
              simp only [emaStep, List.getD_eq_getElem?_getD, hgetD, ← hseed]
            rw [hstep, ih (i + 1) _ _ hdrop2]
            simp [emaSpecGo]
        | some e =>
            have hstep : emaStep data vp f (res, some e) i =
                (res ++ [some ((cv - e) * f + e)], some ((cv - e) * f + e)) := by
              simp [emaStep, hgetD]
            rw [hstep, ih (i + 1) _ _ hdrop2]
            simp [emaSpecGo]

/-- `calculateEMA` agrees with the specification-side recursion. -/
theorem calculateEMA_eq_emaSpec (data : List (Option ℚ)) (period : ℤ) :
    calculateEMA data period = emaSpec data period := by
  have h := ema_loop_eq_emaSpecGo data (clampPeriod period).toNat
    (2 / (((clampPeriod period).toNat : ℚ) + 1)) data 0 none [] (by simp)
  simp only [calculateEMA, emaSpec, List.range_eq_range']
  rw [h]
  simp

/-- The spec-side recursion emits `none` at every `null` input position. -/
theorem emaSpecGo_none_at (data : List (Option ℚ)) (vp : ℕ) (f : ℚ) :
    ∀ (rest : List (Option ℚ)) (i : ℕ) (st : Option ℚ) (j : ℕ),
      rest[j]? = some none → ((emaSpecGo data vp f i st rest).1)[j]? = some none := by
  intro rest
  induction rest with
  | nil => intro i st j h; simp at h
  | cons c rest ih =>
    intro i st j h
    cases j with
    | zero =>
        simp only [List.getElem?_cons_zero, Option.some.injEq] at h
        subst h
        simp [emaSpecGo]
    | succ j =>
        simp only [List.getElem?_cons_succ] at h
        cases c with
        | none => simpa [emaSpecGo] using ih (i + 1) st j h
        | some cv =>
            cases st with
            | none => simpa [emaSpecGo] using ih (i + 1) _ j h
            | some e => simpa [emaSpecGo] using ih (i + 1) _ j h

/-- C6: `exponentialMovingAverage` clamps the period to `[2, 100]`, uses
smoothing factor `2 / (period + 1)`, seeds with the simple average of the
valid values among the first up-to-`period` inputs, and from the seed
onward emits `(current - prevEma) * factor + prevEma`; an absent or
non-finite input at position `i` yields an absent output at `i` without
changing the EMA state, and the recursion resumes from the last valid
state at the next valid input — all captured by equality with the
stateful recursion `emaSpecGo`, plus the `null`-propagation law and a
worked instance interleaving a `null`. -/
theorem calculateEMA_meets_spec :
    (∀ (data : List (Option ℚ)) (period : ℤ), calculateEMA data period = emaSpec data period)
    ∧ (∀ (data : List (Option ℚ)) (period : ℤ) (i : ℕ),
        data[i]? = some none → (calculateEMA data period)[i]? = some none)
    ∧ calculateEMA [some 10, none, some 20] 3 = [some 10, none, some 15] := by
  refine ⟨calculateEMA_eq_emaSpec, ?_, ?_⟩
  · intro data period i h
    rw [calculateEMA_eq_emaSpec]
    unfold emaSpec
    exact emaSpecGo_none_at data _ _ data 0 none i h
  · have h3 : (3 : ℤ).toNat = 3 := rfl
    norm_num [calculateEMA, emaStep, clampPeriod, List.range_succ, List.filterMap,
      listMean, jsSum, List.foldl, h3, List.take]

/-- C6 witness: the claim theorem applied at the concrete series
`[10, null, 20]` with period 3 — the `null` at position 1 yields an
absent output there. -/
theorem calculateEMA_witness :
    (calculateEMA [some 10, none, some 20] 3)[1]? = some none :=
  calculateEMA_meets_spec.2.1 [some 10, none, some 20] 3 1 (by rfl)

/-! ### C4: volatility -/

/-- Every survivor of the validity filter is positive. -/
theorem validRates_pos (rates : List JsNum) : ∀ r ∈ validRates rates, 0 < r := by
  intro r hr
  rcases List.mem_filterMap.mp hr with ⟨a, _, ha⟩
  cases a with
  | fin q =>
      by_cases hq : 0 < q
      · simp only [if_pos hq, Option.some.injEq] at ha
        simpa [← ha] using hq
      · simp [hq] at ha
  | nan => simp at ha
  | posInf => simp at ha
  | negInf => simp at ha

/-- The squared-difference reduce equals the summed squared-difference
map. -/
theorem variance_foldl_eq_map (l : List ℚ) (m : ℚ) :
    l.foldl (fun s r => s + (r - m) * (r - m)) 0 = (l.map (fun r => (r - m) ^ 2)).sum := by
  rw [foldl_add_eq_sum (fun r => (r - m) * (r - m)) l 0, zero_add]
  congr 1
  exact List.map_congr_left fun r _ => by rw [pow_two]

/-- `calculateVolatility` agrees with the specification-side volatility
everywhere. -/
theorem calculateVolatility_eq_volatilitySpec (rates : List JsNum) :
    calculateVolatility rates = volatilitySpec rates := by
  by_cases h2 : (validRates rates).length < 2
  · by_cases h1 : rates.length < 2 <;>
      simp [calculateVolatility, volatilitySpec, h1, h2]
  · have h1 : ¬ rates.length < 2 := by
      have hle := List.length_filterMap_le
        (fun r : JsNum => match r with
          | .fin q => if 0 < q then some q else none
          | _ => none) rates
      unfold validRates at h2
      omega
    by_cases hm : listMean (validRates rates) = 0
    · have hm2 : jsSum (validRates rates) / ((validRates rates).length : ℚ) = 0 := by
        simpa [listMean] using hm
      simp [calculateVolatility, volatilitySpec, h1, h2, hm, hm2]
    · have hm2 : ¬ jsSum (validRates rates) / ((validRates rates).length : ℚ) = 0 := by
        simpa [listMean] using hm
      simp only [calculateVolatility, volatilitySpec, if_neg h1, if_neg h2, if_neg hm,
        if_neg hm2]
      rw [variance_foldl_eq_map, popVariance, jsSum_eq_sum]
      simp [listMean, jsSum_eq_sum]

/-- The volatility field of the chart metrics, for a nonempty positive
rate list: always present, equal to the population standard deviation
over the mean as a percentage. -/
theorem metricsOfRates_volatility (rates : List ℚ) (hne : rates ≠ [])
    (hpos : ∀ r ∈ rates, 0 < r) :
    (metricsOfRates rates).map Metrics.volatility
      = some (Real.sqrt ((popVariance rates : ℚ) : ℝ) / ((listMean rates : ℚ) : ℝ) * 100) := by
  have havg : listMean rates ≠ 0 := ne_of_gt (listMean_pos hne hpos)
  have havg2 : ¬ jsSum rates / ((rates.length : ℚ)) = 0 := by
    simpa [listMean] using havg
  simp only [metricsOfRates, if_neg hne, Option.map_some']
  rw [variance_foldl_eq_map, if_pos havg2]
  simp [popVariance, listMean, jsSum_eq_sum]

/-- C4 (amended): `calculateVolatility` is exactly the claimed
volatility — population standard deviation of the valid (finite,
positive) subset divided by its mean, as a percentage; absent under 2
valid points or for a zero mean — with `volatility([10,10,10]) = 0` and
`volatility([10])` absent; `calculateMetrics`, by contrast, computes the
same formula over its pre-extracted series but keeps the volatility
present (it is `0` for a single point, never absent). -/
theorem volatility_amended :
    (∀ rates : List JsNum, calculateVolatility rates = volatilitySpec rates)
    ∧ calculateVolatility [.fin 10, .fin 10, .fin 10] = some 0
    ∧ calculateVolatility [.fin 10] = none
    ∧ (∀ rates : List ℚ, rates ≠ [] → (∀ r ∈ rates, 0 < r) →
        (metricsOfRates rates).map Metrics.volatility
          = some (Real.sqrt ((popVariance rates : ℚ) : ℝ)
              / ((listMean rates : ℚ) : ℝ) * 100)) := by
  refine ⟨calculateVolatility_eq_volatilitySpec, ?_, ?_, metricsOfRates_volatility⟩
  · have h : calculateVolatility [.fin 10, .fin 10, .fin 10]
        = volatilitySpec [.fin 10, .fin 10, .fin 10] :=
      calculateVolatility_eq_volatilitySpec _
    rw [h]
    norm_num [volatilitySpec, validRates, List.filterMap, listMean, jsSum, List.foldl,
      popVariance]
  · norm_num [calculateVolatility, validRates, List.filterMap]

/-- C4 counterexample: the chart metrics for the single-point series
`[10]` carry a present volatility equal to `0`, where the claim demands
an absent volatility for fewer than 2 valid points. -/
theorem volatility_counterexample :
    (calculateMetrics [("2024-01-01", [("USD", JsNum.fin 10)])] "USD").map Metrics.volatility
        = some 0
    ∧ volatilitySpec [JsNum.fin 10] = none := by
  constructor
  · have h := metricsOfRates_volatility [10] (by simp) (by norm_num)
    have hrates : (sortStrings ["2024-01-01"]).filterMap (fun d =>
        match historyGet [("2024-01-01", [("USD", JsNum.fin 10)])] d with
        | some day =>
            match recordGet day "USD" with
            | some (.fin q) => if 0 < q then some q else none
            | _ => none
        | none => none) = [10] := by
      norm_num [sortStrings, insertSorted, List.foldl, historyGet, recordGet,
        List.filterMap]
    unfold calculateMetrics
    simp only [List.map_cons, List.map_nil]
    rw [hrates, h]
    norm_num [popVariance, listMean, jsSum, List.foldl]
  · norm_num [volatilitySpec, validRates, List.filterMap]

/-- C4 witness: the amended theorem applied to the singleton series
`[10]` — metrics volatility present and equal to `sqrt(0)/10*100`. -/
theorem volatility_amended_witness :
    (metricsOfRates [10]).map Metrics.volatility
      = some (Real.sqrt ((popVariance [10] : ℚ) : ℝ) / ((listMean [10] : ℚ) : ℝ) * 100) :=
  volatility_amended.2.2.2 [10] (by simp) (by norm_num)

/-! ### C5: trend classification -/

/-- The `calculateMetrics` trend block agrees with the claimed
`1.01 / 0.99` rule (including the under-2-points neutral case, where the
empty first half makes the JavaScript average `NaN` and every comparison
false). -/
theorem trendOfRates_eq_trendClaimSpec (rates : List ℚ) :
    trendOfRates rates = trendClaimSpec rates := by
  by_cases hlen : rates.length < 2
  · have hmid : rates.length / 2 = 0 := by omega
    have hfirst : rates.take (rates.length / 2) = [] := by
      rw [hmid]; simp
    simp [trendOfRates, trendClaimSpec, hlen, hfirst, javg]
  · have hmid1 : 1 ≤ rates.length / 2 := by omega
    have hne : rates ≠ [] := by
      intro h; subst h; simp at hlen
    have hfirst : rates.take (rates.length / 2) ≠ [] := by
      rw [Ne, List.take_eq_nil_iff]
      push_neg
      exact ⟨by omega, hne⟩
    have hsecond : rates.drop (rates.length / 2) ≠ [] := by
      rw [Ne, List.drop_eq_nil_iff]
      omega
    simp [trendOfRates, trendClaimSpec, hlen, hfirst, hsecond, javg]

/-- `determineTrend` agrees with the percentage-threshold description:
neutral under 2 valid points, otherwise classified by the relative change
of the half-means against `+0.1` and `-0.1`. -/
theorem determineTrend_eq_trendPercentSpec (rates : List JsNum) :
    determineTrend rates = trendPercentSpec rates := by
  by_cases h2 : (validRates rates).length < 2
  · by_cases h1 : rates.length < 2 <;>
      simp [determineTrend, trendPercentSpec, h1, h2]
  · have h1 : ¬ rates.length < 2 := by
      have hle := List.length_filterMap_le
        (fun r : JsNum => match r with
          | .fin q => if 0 < q then some q else none
          | _ => none) rates
      unfold validRates at h2
      omega
    have hvne : validRates rates ≠ [] := by
      intro h
      rw [h] at h2
      simp at h2
    have hvlen : 2 ≤ (validRates rates).length := by omega
    have hfirst : (validRates rates).take ((validRates rates).length / 2) ≠ [] := by
      rw [Ne, List.take_eq_nil_iff]
      push_neg
      exact ⟨by omega, hvne⟩
    have hsecond : (validRates rates).drop ((validRates rates).length / 2) ≠ [] := by
      rw [Ne, List.drop_eq_nil_iff]
      omega
    have hposf : 0 < listMean ((validRates rates).take ((validRates rates).length / 2)) :=
      listMean_pos hfirst fun r hr =>
        validRates_pos rates r (List.mem_of_mem_take hr)
    have hne0 : listMean ((validRates rates).take ((validRates rates).length / 2)) ≠ 0 :=
      ne_of_gt hposf
    simp [determineTrend, trendPercentSpec, h1, h2, hfirst, hsecond, javg, hne0]

/-- C5 (amended): the `calculateMetrics` trend follows exactly the
claimed rule — split the valid series at its floor midpoint, `up` when
the second-half mean exceeds the first-half mean times `1.01`, `down`
below times `0.99`, else `neutral`, with `trend([1,1,1,2,2,2]) = up`,
`trend([2,2,2,1,1,1]) = down`, `trend([1,1,1,1]) = neutral`; the
analytics card's `determineTrend`, by contrast, classifies by the
percentage change between the half-means with thresholds `+0.1` and
`-0.1` (factors `1.001 / 0.999`), neutral under 2 valid points. -/
theorem trend_amended :
    (∀ rates : List ℚ, trendOfRates rates = trendClaimSpec rates)
    ∧ (∀ rates : List JsNum, determineTrend rates = trendPercentSpec rates)
    ∧ trendOfRates [1, 1, 1, 2, 2, 2] = Trend.up
    ∧ trendOfRates [2, 2, 2, 1, 1, 1] = Trend.down
    ∧ trendOfRates [1, 1, 1, 1] = Trend.neutral := by
  refine ⟨trendOfRates_eq_trendClaimSpec, determineTrend_eq_trendPercentSpec, ?_, ?_, ?_⟩
  · rw [trendOfRates_eq_trendClaimSpec]
    norm_num [trendClaimSpec, listMean, jsSum, List.foldl, List.take, List.drop]
  · rw [trendOfRates_eq_trendClaimSpec]
    norm_num [trendClaimSpec, listMean, jsSum, List.foldl, List.take, List.drop]
  · rw [trendOfRates_eq_trendClaimSpec]
    norm_num [trendClaimSpec, listMean, jsSum, List.foldl, List.take, List.drop]

/-- C5 counterexample: on the series `[100, 100.5]` the repository's
`determineTrend` answers `up` (the relative change `0.5%` exceeds its
`0.1` threshold), while the claimed `1.01`-factor rule answers
`neutral`. -/
theorem trend_counterexample :
    determineTrend [JsNum.fin 100, JsNum.fin (201 / 2)] = Trend.up
    ∧ trendClaimSpec [100, 201 / 2] = Trend.neutral := by
  constructor
  · rw [determineTrend_eq_trendPercentSpec]
    norm_num [trendPercentSpec, validRates, List.filterMap, listMean, jsSum,
      List.foldl, List.take, List.drop]
  · norm_num [trendClaimSpec, listMean, jsSum, List.foldl, List.take, List.drop]

/-- C5 witness: the amended theorem applied to the concrete valid series
`[1, 1, 1, 2, 2, 2]`, whose trend block must agree with the claimed
rule. -/
theorem trend_amended_witness :
    trendOfRates [1, 1, 1, 2, 2, 2] = trendClaimSpec [1, 1, 1, 2, 2, 2] :=
  trend_amended.1 [1, 1, 1, 2, 2, 2]

/-! ### C8: currency strength -/

/-- Membership through the stable descending insert. -/
theorem mem_strengthInsert (x y : CurrencyStrength) (l : List CurrencyStrength) :
    x ∈ strengthInsert y l ↔ x = y ∨ x ∈ l := by
  induction l with
  | nil => simp [strengthInsert]
  | cons z t ih =>
      by_cases h : z.strength < y.strength
      · simp [strengthInsert, h]
      · simp [strengthInsert, h, ih]
        tauto

/-- Membership through the insertion-sort fold. -/
theorem mem_sortFold (l : List CurrencyStrength) :
    ∀ (acc : List CurrencyStrength) (x : CurrencyStrength),
      x ∈ l.foldl (fun a e => strengthInsert e a) acc ↔ x ∈ l ∨ x ∈ acc := by
  induction l with
  | nil => intro acc x; simp
  | cons e t ih =>
      intro acc x
      rw [List.foldl_cons, ih (strengthInsert e acc) x, mem_strengthInsert]
      simp
      tauto

/-- Sorting by descending strength preserves membership. -/
theorem mem_sortByStrengthDesc (x : CurrencyStrength) (l : List CurrencyStrength) :
    x ∈ sortByStrengthDesc l ↔ x ∈ l := by
  simp [sortByStrengthDesc, mem_sortFold]

/-- The guarded change term equals the specification's change term. -/
theorem histChange_eq_spec (current : ℚ) (r : Option JsNum) :
    histChange current r = specHistChange current r := by
  cases r with
  | none => rfl
  | some v =>
      cases v with
      | fin q =>
          by_cases h0 : 0 < q
          · simp [histChange, specHistChange, h0, ne_of_gt h0]
          · simp [histChange, specHistChange, h0]
      | nan => rfl
      | posInf => rfl
      | negInf => rfl

/-- The guarded 24h term equals the specification's 24h term. -/
theorem change24hOf_eq_spec (v : Option JsNum) :
    change24hOf v = specChange24h v := by
  cases v with
  | none => rfl
  | some w =>
      cases w with
      | fin q =>
          by_cases h0 : q = 0
          · simp [change24hOf, specChange24h, h0]
          · simp [change24hOf, specChange24h, h0]
      | nan => rfl
      | posInf => rfl
      | negInf => rfl

/-- The `calculateStrengths` loop body agrees with the specification-side
row builder. -/
theorem strengthStep_eq_specEntry (h7 h30 : List (String × JsNum)) (c : CurrencyData) :
    strengthStep h7 h30 c = strengthSpecEntry h7 h30 c := by
  unfold strengthStep strengthSpecEntry
  cases c.rate with
  | fin r =>
      by_cases hpos : 0 < r
      · have hneg : ¬ r ≤ 0 := not_le.mpr hpos
        simp only [if_neg hneg, if_pos hpos, histChange_eq_spec, change24hOf_eq_spec,
          Option.some.injEq]
        generalize specChange24h c.changePercent24h = x
        generalize specHistChange r (recordGet h7 c.code) = y
        generalize specHistChange r (recordGet h30 c.code) = z
        have hs : x * 0.5 + y * 0.3 + z * 0.2 = 0.5 * x + 0.3 * y + 0.2 * z := by ring
        simp only [hs, gt_iff_lt]
      · have hle : r ≤ 0 := not_lt.mp hpos
        simp [hle, hpos]
  | nan => rfl
  | posInf => rfl
  | negInf => rfl

/-- Every row the specification-side builder emits carries the weighted
score and its threshold classification. -/
theorem strengthSpecEntry_fields {h7 h30 : List (String × JsNum)} {c : CurrencyData}
    {s : CurrencyStrength} (h : strengthSpecEntry h7 h30 c = some s) :
    s.trend = (if STRENGTH_THRESHOLD_STRONG < s.strength then StrengthTrend.strong
               else if s.strength < STRENGTH_THRESHOLD_WEAK then StrengthTrend.weak
               else StrengthTrend.moderate)
    ∧ s.strength = 0.5 * s.change24h + 0.3 * s.change7d + 0.2 * s.change30d := by
  unfold strengthSpecEntry at h
  cases hr : c.rate with
  | fin r =>
      rw [hr] at h
      by_cases hpos : 0 < r
      · simp only [if_pos hpos, Option.some.injEq] at h
        subst h
        simp
      · simp [if_neg hpos] at h
  | nan => rw [hr] at h; exact absurd h (by simp)
  | posInf => rw [hr] at h; exact absurd h (by simp)
  | negInf => rw [hr] at h; exact absurd h (by simp)

/-- C8: `calculateStrengths` scores exactly the currencies with a valid
(finite, positive) current rate, each score being
`0.5 * change24h + 0.3 * change7d + 0.2 * change30d` with a change term
zeroed when its source datum is unavailable or invalid, and classifies
every included score `strong` above `+2`, `weak` below `-2`, else
`moderate` (the `isFinite(strength)` exclusion guard is vacuous in the
exact-rational model, where a finite-input score is always finite). -/
theorem calculateStrengths_meets_spec :
    (∀ (currencies : List CurrencyData) (h7 h30 : List (String × JsNum)),
        calculateStrengths currencies h7 h30 = strengthsSpec currencies h7 h30)
    ∧ (∀ (currencies : List CurrencyData) (h7 h30 : List (String × JsNum))
        (s : CurrencyStrength), s ∈ calculateStrengths currencies h7 h30 →
          s.trend = (if STRENGTH_THRESHOLD_STRONG < s.strength then StrengthTrend.strong
                     else if s.strength < STRENGTH_THRESHOLD_WEAK then StrengthTrend.weak
                     else StrengthTrend.moderate)
          ∧ s.strength = 0.5 * s.change24h + 0.3 * s.change7d + 0.2 * s.change30d) := by
  have hmain : ∀ (currencies : List CurrencyData) (h7 h30 : List (String × JsNum)),
      calculateStrengths currencies h7 h30 = strengthsSpec currencies h7 h30 := by
    intro currencies h7 h30
    unfold calculateStrengths strengthsSpec
    by_cases hnil : currencies.length = 0
    · have : currencies = [] := List.length_eq_zero.mp hnil
      subst this
      simp [sortByStrengthDesc]
    · rw [if_neg hnil]
      have hfun : strengthStep h7 h30 = strengthSpecEntry h7 h30 :=
        funext (strengthStep_eq_specEntry h7 h30)
      simp only [hfun, foldl_pushOpt_eq_filterMap (strengthSpecEntry h7 h30) currencies,
        List.nil_append]
  refine ⟨hmain, ?_⟩
  intro currencies h7 h30 s hs
  rw [hmain] at hs
  unfold strengthsSpec at hs
  rw [mem_sortByStrengthDesc] at hs
  rcases List.mem_filterMap.mp hs with ⟨c, _, hc⟩
  exact strengthSpecEntry_fields hc

/-- C8 witness: one concrete currency with rate `2` and a 24h change of
`10` percent is scored `5` and classified `strong`, by applying the claim
theorem to its membership in the computed list. -/
theorem calculateStrengths_witness :
    (⟨"USD", "US Dollar", 5, .strong, 10, 0, 0⟩ : CurrencyStrength).trend
        = (if STRENGTH_THRESHOLD_STRONG
              < (⟨"USD", "US Dollar", 5, .strong, 10, 0, 0⟩ : CurrencyStrength).strength
           then StrengthTrend.strong
           else if (⟨"USD", "US Dollar", 5, .strong, 10, 0, 0⟩ : CurrencyStrength).strength
              < STRENGTH_THRESHOLD_WEAK
           then StrengthTrend.weak
           else StrengthTrend.moderate)
    ∧ (⟨"USD", "US Dollar", 5, .strong, 10, 0, 0⟩ : CurrencyStrength).strength
        = 0.5 * (⟨"USD", "US Dollar", 5, .strong, 10, 0, 0⟩ : CurrencyStrength).change24h
          + 0.3 * (⟨"USD", "US Dollar", 5, .strong, 10, 0, 0⟩ : CurrencyStrength).change7d
          + 0.2 * (⟨"USD", "US Dollar", 5, .strong, 10, 0, 0⟩ : CurrencyStrength).change30d :=
  calculateStrengths_meets_spec.2
    [⟨"USD", "US Dollar", .fin 2, some (.fin 10)⟩] [] []
    ⟨"USD", "US Dollar", 5, .strong, 10, 0, 0⟩
    (by norm_num [calculateStrengths, strengthStep, histChange, change24hOf, recordGet,
      sortByStrengthDesc, strengthInsert, List.foldl, STRENGTH_THRESHOLD_STRONG,
      STRENGTH_THRESHOLD_WEAK])

/-! ### C3: cache reads with lazy expiry -/

/-- C3: `getCached` returns a stored value exactly when the hit entry's
age `now - insertedAt` is strictly below the 5-minute timeout, and a hit
on an expired entry returns nothing while deleting that entry from the
map. -/
theorem getCached_meets_spec :
    ∀ (α : Type) (cache : Cache String α) (key : String) (now : ℤ),
      (∀ v : α, (getCached cache key now).1 = some v ↔
        ∃ e : CacheEntry α, mapLookup cache key = some e ∧ e.data = v
          ∧ now - e.timestamp < cacheTimeout)
      ∧ (∀ e : CacheEntry α, mapLookup cache key = some e →
          ¬ now - e.timestamp < cacheTimeout →
          (getCached cache key now).1 = none
            ∧ (getCached cache key now).2 = mapDelete cache key) := by
  intro α cache key now
  cases hl : mapLookup cache key with
  | none =>
      constructor
      · intro v
        simp [getCached, hl]
      · intro e he _
        exact absurd he (by simp)
  | some e =>
      by_cases hts : now - e.timestamp < cacheTimeout
      · constructor
        · intro v
          simp only [getCached, hl, if_pos hts, Option.some.injEq]
          constructor
          · intro hv
            exact ⟨e, rfl, hv, hts⟩
          · rintro ⟨e2, he2, hd, _⟩
            rw [he2]
            exact hd
        · intro e2 he2 hts2
          rw [Option.some.injEq] at he2
          rw [← he2] at hts2
          exact absurd hts hts2
      · constructor
        · intro v
          simp only [getCached, hl, if_neg hts]
          constructor
          · intro hv
            exact absurd hv (by simp)
          · rintro ⟨e2, he2, _, hts2⟩
            rw [Option.some.injEq] at he2
            rw [← he2] at hts2
            exact absurd hts2 hts
        · intro e2 _ _
          simp [getCached, hl, if_neg hts]

/-- C3 witness: a hit on an entry inserted at time `0` and read at time
`300000` (exactly the timeout) returns nothing and leaves the cache
without the entry. -/
theorem getCached_witness :
    (getCached [("k", (⟨7, 0⟩ : CacheEntry ℚ))] "k" 300000).1 = none
    ∧ (getCached [("k", (⟨7, 0⟩ : CacheEntry ℚ))] "k" 300000).2
        = mapDelete [("k", (⟨7, 0⟩ : CacheEntry ℚ))] "k" :=
  (getCached_meets_spec ℚ [("k", ⟨7, 0⟩)] "k" 300000).2 ⟨7, 0⟩ (by decide) (by decide)

/-! ### C2: the capacity bound -/

set_option maxRecDepth 10000 in
/-- C2 failing input, evaluated: 101 `setCache` calls with distinct keys,
all during the same millisecond (`Date.now() = 5` throughout, as when a
burst of inserts lands within one clock tick), leave the cache with 101
entries — the eviction scan starts its candidate timestamp at `Date.now()`
and only a strictly smaller stamp is ever selected, so a full cache of
same-instant entries evicts nothing and the documented 100-entry maximum
is exceeded. -/
theorem setCache_sameMillisecond_overflow :
    ((List.range 101).foldl (fun (c : Cache ℕ Unit) i => setCache c i () 5) []).length
      = 101 := by
  decide

/-! ### C1: cache-key construction -/

/-- An `[A-Z]` character has code point between 65 and 90. -/
theorem char_bounds_of_isAsciiUpper {c : Char} (h : isAsciiUpper c = true) :
    65 ≤ c.toNat ∧ c.toNat ≤ 90 := by
  unfold isAsciiUpper at h
  simp only [Bool.and_eq_true, decide_eq_true_eq] at h
  obtain ⟨h1, h2⟩ := h
  rw [Char.le_def] at h1 h2
  exact ⟨h1, h2⟩

/-- Upper-casing fixes an `[A-Z]` character. -/
theorem toUpper_of_isAsciiUpper {c : Char} (h : isAsciiUpper c = true) :
    c.toUpper = c := by
  obtain ⟨h1, h2⟩ := char_bounds_of_isAsciiUpper h
  unfold Char.toUpper
  rw [if_neg]
  omega

/-- An `[A-Z]` character is not whitespace. -/
theorem isWhitespace_eq_false_of_isAsciiUpper {c : Char} (h : isAsciiUpper c = true) :
    c.isWhitespace = false := by
  obtain ⟨h1, _⟩ := char_bounds_of_isAsciiUpper h
  unfold Char.isWhitespace
  have hs : c ≠ ' ' := by intro hc; subst hc; simp at h1
  have ht : c ≠ '\t' := by intro hc; subst hc; simp at h1
  have hr : c ≠ '\x0d' := by intro hc; subst hc; simp at h1
  have hn : c ≠ '\n' := by intro hc; subst hc; simp at h1
  simp [hs, ht, hr, hn]

/-- `dropWhile` is the identity when no element satisfies the predicate. -/
theorem dropWhile_eq_self_of_not {p : Char → Bool} {l : List Char}
    (h : ∀ c ∈ l, p c = false) : l.dropWhile p = l := by
  cases l with
  | nil => rfl
  | cons c t =>
      rw [List.dropWhile_cons, h c (List.mem_cons_self c t)]
      simp

/-- Rebuilding a string from its character list is the identity. -/
theorem strMk_toList (s : String) : String.mk s.toList = s := rfl

/-- A string already matching `/^[A-Z]{3}$/` passes the sanitizer
unchanged. -/
theorem sanitize_threeUpper_id {s : String} (h : isThreeUpper s = true) :
    sanitizeCurrencyCode s = s := by
  have h2 := h
  unfold isThreeUpper at h2
  simp only [Bool.and_eq_true, decide_eq_true_eq, List.all_eq_true] at h2
  obtain ⟨h3, hall⟩ := h2
  have hne : s ≠ "" := by
    intro he
    subst he
    exact absurd h3 (by decide)
  have htrim : jsTrim s = s := by
    unfold jsTrim
    have hws : ∀ c ∈ s.toList, c.isWhitespace = false := fun c hc =>
      isWhitespace_eq_false_of_isAsciiUpper (hall c hc)
    rw [dropWhile_eq_self_of_not hws]
    have hws2 : ∀ c ∈ s.toList.reverse, c.isWhitespace = false := fun c hc =>
      hws c (List.mem_reverse.mp hc)
    rw [dropWhile_eq_self_of_not hws2, List.reverse_reverse, strMk_toList]
  have hupper : jsUpper s = s := by
    unfold jsUpper
    have hmap : s.toList.map Char.toUpper = s.toList := by
      have := List.map_congr_left (l := s.toList)
        (f := Char.toUpper) (g := fun c => c) (fun c hc => toUpper_of_isAsciiUpper (hall c hc))
      simpa using this
    rw [hmap, strMk_toList]
  have hfilter : s.toList.filter isAsciiUpper = s.toList :=
    List.filter_eq_self.mpr hall
  have hsan : strSlice (String.mk ((jsUpper (jsTrim s)).toList.filter isAsciiUpper)) 3 = s := by
    rw [htrim, hupper, hfilter, strMk_toList]
    unfold strSlice
    rw [← h3, List.take_length, strMk_toList]
  unfold sanitizeCurrencyCode
  rw [if_neg hne]
  simp only [hsan, if_pos h]

/-- Every sanitizer output matches `/^[A-Z]{3}$/`. -/
theorem isThreeUpper_sanitize (code : String) :
    isThreeUpper (sanitizeCurrencyCode code) = true := by
  unfold sanitizeCurrencyCode
  by_cases h : code = ""
  · rw [if_pos h]; decide
  · rw [if_neg h]
    by_cases ht : isThreeUpper
        (strSlice (String.mk ((jsUpper (jsTrim code)).toList.filter isAsciiUpper)) 3) = true
    · simp only [if_pos ht]
      exact ht
    · simp only [if_neg ht]
      decide

/-- Every sanitizer output passes the array filter. -/
theorem regexTest_sanitize (code : String) :
    regexCurrencyTest (sanitizeCurrencyCode code) = true :=
  isThreeUpper_sanitize code

/-- The sanitizer is idempotent. -/
theorem sanitize_idem (code : String) :
    sanitizeCurrencyCode (sanitizeCurrencyCode code) = sanitizeCurrencyCode code :=
  sanitize_threeUpper_id (isThreeUpper_sanitize code)

/-- The sanitizer never returns the empty string. -/
theorem sanitize_ne_empty (code : String) : sanitizeCurrencyCode code ≠ "" := by
  have h := isThreeUpper_sanitize code
  intro he
  rw [he] at h
  exact absurd h (by decide)

/-- Appending an element already seen (in the list or in the accumulator)
does not change the de-duplication. -/
theorem dedupFirstGo_append_mem :
    ∀ (l : List String) (seen : List String) (x : String),
      (x ∈ l ∨ x ∈ seen) → dedupFirstGo seen (l ++ [x]) = dedupFirstGo seen l := by
  intro l
  induction l with
  | nil =>
      intro seen x hx
      have hxs : x ∈ seen := by
        rcases hx with h | h
        · exact absurd h (by simp)
        · exact h
      simp [dedupFirstGo, hxs]
  | cons y t ih =>
      intro seen x hx
      by_cases hy : y ∈ seen
      · simp only [List.cons_append, dedupFirstGo, if_pos hy]
        apply ih
        rcases hx with h | h
        · rcases List.mem_cons.mp h with h1 | h1
          · subst h1; exact Or.inr hy
          · exact Or.inl h1
        · exact Or.inr h
      · simp only [List.cons_append, dedupFirstGo, if_neg hy]
        have harg : x ∈ t ∨ x ∈ y :: seen := by
          rcases hx with h | h
          · rcases List.mem_cons.mp h with h1 | h1
            · subst h1; exact Or.inr (List.mem_cons_self x seen)
            · exact Or.inl h1
          · exact Or.inr (List.mem_cons_of_mem y h)
        rw [show t.append [x] = t ++ [x] from rfl, ih (y :: seen) x harg]

/-- C1 counterexample: `['GBP','USD']` is a permutation of
`['USD','GBP']` (same operation kind and base), yet the two cache keys
differ — the symbol list is joined in input order, not sorted. -/
theorem buildCacheKey_not_order_invariant :
    (["GBP", "USD"] : List String).Perm ["USD", "GBP"]
    ∧ buildCacheKey [.str "latest", .str (sanitizeCurrencyCode "EUR"),
        .arr (sanitizeCurrencyArray ["USD", "GBP"])]
      ≠ buildCacheKey [.str "latest", .str (sanitizeCurrencyCode "EUR"),
        .arr (sanitizeCurrencyArray ["GBP", "USD"])] :=
  ⟨List.Perm.swap "USD" "GBP" [], by decide⟩

/-- C1 (amended): the key builder is deterministic in the sanitized,
first-occurrence de-duplicated symbol sequence, which keeps the input
order (it is not sorted): the sanitized array is exactly the
de-duplication of the element-wise sanitization; two symbol lists with
equal sanitized de-duplications give identical keys; and appending a
duplicate symbol leaves the sanitized array (hence the key) unchanged.
Permuting distinct symbols, however, can change the key. -/
theorem buildCacheKey_amended :
    (∀ xs : List String,
        sanitizeCurrencyArray xs = dedupFirst (xs.map sanitizeCurrencyCode))
    ∧ (∀ (op b : String) (xs ys : List String),
        sanitizeCurrencyArray xs = sanitizeCurrencyArray ys →
        buildCacheKey [.str op, .str b, .arr (sanitizeCurrencyArray xs)]
          = buildCacheKey [.str op, .str b, .arr (sanitizeCurrencyArray ys)])
    ∧ (∀ (xs : List String) (c : String),
        sanitizeCurrencyCode c ∈ xs.map sanitizeCurrencyCode →
        sanitizeCurrencyArray (xs ++ [c]) = sanitizeCurrencyArray xs) := by
  have hfilter : ∀ xs : List String,
      (xs.map sanitizeCurrencyCode).filter regexCurrencyTest
        = xs.map sanitizeCurrencyCode := by
    intro xs
    apply List.filter_eq_self.mpr
    intro a ha
    rcases List.mem_map.mp ha with ⟨x, _, rfl⟩
    exact regexTest_sanitize x
  refine ⟨?_, ?_, ?_⟩
  · intro xs
    unfold sanitizeCurrencyArray
    rw [hfilter]
  · intro op b xs ys h
    rw [h]
  · intro xs c hc
    unfold sanitizeCurrencyArray dedupFirst
    rw [hfilter, hfilter, List.map_append, List.map_singleton]
    exact dedupFirstGo_append_mem (xs.map sanitizeCurrencyCode) [] (sanitizeCurrencyCode c)
      (Or.inl hc)

/-- C1 witness: the amended theorem at concrete inputs — the list
`['USD','GBP','USD']` (a duplicate appended) produces the same key as
`['USD','GBP']`. -/
theorem buildCacheKey_amended_witness :
    buildCacheKey [.str "latest", .str "EUR", .arr (sanitizeCurrencyArray ["USD", "GBP", "USD"])]
      = buildCacheKey [.str "latest", .str "EUR", .arr (sanitizeCurrencyArray ["USD", "GBP"])] :=
  buildCacheKey_amended.2.1 "latest" "EUR" ["USD", "GBP", "USD"] ["USD", "GBP"] (by decide)

/-! ### C9: the empty fallback after exhausted retries -/

/-- When the first `n + 1` attempts all fail, the retried fetch fails. -/
theorem fetchWithRetry_none {β : Type} :
    ∀ (attempts : List (Option β)) (n : ℕ),
      (∀ a ∈ attempts.take (n + 1), a = none) → fetchWithRetry attempts n = none := by
  intro attempts
  induction attempts with
  | nil => intro n _; cases n <;> rfl
  | cons a rest ih =>
      intro n h
      have ha : a = none := h a (by simp)
      cases n with
      | zero =>
          subst ha
          rfl
      | succ m =>
          subst ha
          unfold fetchWithRetry
          apply ih
          intro b hb
          exact h b (by simpa using List.mem_cons_of_mem none hb)

/-- The empty exchange rate built from an already-sanitized base keeps
that base verbatim. -/
theorem createEmpty_of_sanitized (base today : String) :
    createEmptyExchangeRate (sanitizeCurrencyCode base) today
      = { base := sanitizeCurrencyCode base, date := today, rates := [] } := by
  simp only [createEmptyExchangeRate, sanitize_idem]
  rw [if_neg (sanitize_ne_empty base)]

/-- C9: on a cache miss, when every attempt within the retry budget of
`2` re-subscriptions fails, `getLatestRates` returns — instead of an
error — the empty value of the correct shape: an empty rates mapping
under the sanitized requested base (the sanitizer itself defaulting to
`'EUR'` for invalid input). -/
theorem getLatestRates_fallback :
    ∀ (cache : Cache String ExchangeRate) (now : ℤ) (today base : String)
      (symbols : List String) (attempts : List (Option (Option RawExchangeRate))),
      (getCached cache (buildCacheKey [.str "latest", .str (sanitizeCurrencyCode base),
          .arr (sanitizeCurrencyArray symbols)]) now).1 = none →
      (∀ a ∈ attempts.take (retryAttempts + 1), a = none) →
      (getLatestRates cache now today base symbols attempts).1
        = { base := sanitizeCurrencyCode base, date := today, rates := [] } := by
  intro cache now today base symbols attempts hmiss hfail
  unfold getLatestRates
  rcases hgc : getCached cache (buildCacheKey [.str "latest", .str (sanitizeCurrencyCode base),
      .arr (sanitizeCurrencyArray symbols)]) now with ⟨o, cache1⟩
  rw [hgc] at hmiss
  simp only at hmiss
  subst hmiss
  simp only [hgc, fetchWithRetry_none attempts retryAttempts hfail,
    createEmpty_of_sanitized]

/-- C9 witness: an empty cache, an invalid base `'123'` and three failed
attempts produce the empty exchange rate under the default base
`'EUR'`. -/
theorem getLatestRates_fallback_witness :
    (getLatestRates [] 0 "2024-12-26" "123" [] [none, none, none]).1
      = { base := "EUR", date := "2024-12-26", rates := [] } := by
  have h := getLatestRates_fallback [] 0 "2024-12-26" "123" [] [none, none, none]
    (by decide) (by decide)
  rw [h]
  decide

/-! ### C10: currency conversion -/

/-- The sanitized amount is never negative. -/
theorem sanitizeAmount_nonneg (amount : JsNum) : 0 ≤ sanitizeAmount amount := by
  cases amount with
  | fin q =>
      by_cases h : 0 ≤ q <;> simp [sanitizeAmount, h]
  | nan => exact le_refl 0
  | posInf => exact le_refl 0
  | negInf => exact le_refl 0

/-- C10: `convertCurrency` always produces one (finite, in the exact
model) non-negative rational: `0` whenever the sanitized amount is
non-positive, or the target rate is missing, falsy, non-finite or
non-positive; and otherwise exactly the sanitized amount times the
fetched rate. -/
theorem convertCurrency_meets_spec :
    ∀ (frm tgt : String) (amount : JsNum) (latest : ExchangeRate),
      0 ≤ convertCurrency frm tgt amount latest
      ∧ (sanitizeAmount amount ≤ 0 → convertCurrency frm tgt amount latest = 0)
      ∧ (recordGet latest.rates (sanitizeCurrencyCode tgt) = none →
          convertCurrency frm tgt amount latest = 0)
      ∧ (∀ r, recordGet latest.rates (sanitizeCurrencyCode tgt) = some r →
          (r.truthy = false ∨ r.isFinite = false ∨ r.leZero = true) →
          convertCurrency frm tgt amount latest = 0)
      ∧ (∀ q : ℚ, recordGet latest.rates (sanitizeCurrencyCode tgt) = some (.fin q) →
          0 < q → 0 < sanitizeAmount amount →
          convertCurrency frm tgt amount latest = sanitizeAmount amount * q) := by
  intro frm tgt amount latest
  by_cases hamt : sanitizeAmount amount ≤ 0
  · have hz : convertCurrency frm tgt amount latest = 0 := by
      unfold convertCurrency
      rw [if_pos hamt]
    exact ⟨by rw [hz], fun _ => hz, fun _ => hz, fun r _ _ => hz,
      fun q _ _ hpos => absurd hpos (not_lt.mpr hamt)⟩
  · have hpos : 0 < sanitizeAmount amount := lt_of_not_le hamt
    cases hr : recordGet latest.rates (sanitizeCurrencyCode tgt) with
    | none =>
        have hz : convertCurrency frm tgt amount latest = 0 := by
          unfold convertCurrency
          rw [if_neg hamt, hr]
        exact ⟨by rw [hz], fun h => absurd h hamt, fun _ => hz,
          fun r hr2 _ => absurd hr2 (by simp),
          fun q hq _ _ => absurd hq (by simp)⟩
    | some r =>
        by_cases hbad : r.truthy = false ∨ r.isFinite = false ∨ r.leZero = true
        · have hz : convertCurrency frm tgt amount latest = 0 := by
            unfold convertCurrency
            rw [if_neg hamt, hr]
            rcases hbad with h | h | h <;> simp [h]
          refine ⟨by rw [hz], fun h => absurd h hamt, fun h0 => absurd h0 (by simp),
            fun r2 _ _ => hz, fun q hq2 hqpos _ => ?_⟩
          rw [Option.some.injEq] at hq2
          subst hq2
          rcases hbad with h | h | h
          · simp [JsNum.truthy, ne_of_gt hqpos] at h
          · simp [JsNum.isFinite] at h
          · simp [JsNum.leZero, not_le.mpr hqpos] at h
        · push_neg at hbad
          obtain ⟨ht, hf, hl⟩ := hbad
          have hfin : ∃ q : ℚ, r = .fin q ∧ 0 < q := by
            cases r with
            | fin q =>
                refine ⟨q, rfl, ?_⟩
                have h2 : ¬ q ≤ 0 := by simpa [JsNum.leZero] using hl
                exact lt_of_not_le h2
            | nan => simp [JsNum.truthy] at ht
            | posInf => simp [JsNum.isFinite] at hf
            | negInf => simp [JsNum.leZero] at hl
          obtain ⟨q, rfl, hq⟩ := hfin
          have hval : convertCurrency frm tgt amount latest = sanitizeAmount amount * q := by
            unfold convertCurrency
            rw [if_neg hamt, hr]
            simp [JsNum.truthy, JsNum.isFinite, JsNum.leZero, ne_of_gt hq, not_le.mpr hq]
          refine ⟨?_, fun h => absurd h hamt, fun h0 => absurd h0 (by simp),
            fun r2 hr2 hbad2 => ?_, fun q2 hq2 _ _ => ?_⟩
          · rw [hval]
            exact mul_nonneg (sanitizeAmount_nonneg amount) (le_of_lt hq)
          · rw [Option.some.injEq] at hr2
            subst hr2
            rcases hbad2 with h | h | h
            · simp [JsNum.truthy, ne_of_gt hq] at h
            · simp [JsNum.isFinite] at h
            · simp [JsNum.leZero, not_le.mpr hq] at h
          · rw [Option.some.injEq, JsNum.fin.injEq] at hq2
            rw [← hq2]
            exact hval

/-- C10 witness: amount `3` converted at rate `2` yields the sanitized
amount times the rate. -/
theorem convertCurrency_witness :
    convertCurrency "EUR" "USD" (.fin 3) ⟨"EUR", "2024-12-26", [("USD", JsNum.fin 2)]⟩
      = sanitizeAmount (JsNum.fin 3) * 2 :=
  (convertCurrency_meets_spec "EUR" "USD" (.fin 3)
    ⟨"EUR", "2024-12-26", [("USD", JsNum.fin 2)]⟩).2.2.2.2 2 (by decide) (by decide) (by decide)

end AuraFX
